import Mathlib

/-!
# Preemptive priority scheduler (`prepriosched.c`)

A shallow embedding of the ready queue (`pushThread`, `popThread`), of the
arrival generator (`RandThreadGen`) and of the scheduler/worker system
(`MyScheduler`, `fun1`, `fun2`, `fun3`, `Init`), followed by the properties
established about them.

Conventions of the embedding:

* the linked list hanging off `top` is the list of its `tnum` fields, read from
  `top` along `next`; `top == NULL` is the empty list;
* task ids are natural numbers, priorities are integers (`int priority`), and a
  priority table is a function from ids to priorities (`thr[n].priority`);
* the value of `rand()` is an arbitrary natural number handed in by the caller.
-/

namespace PrePrioSched

/-! ## Ready queue -/

/-- The scan of the `else` branch of `pushThread` (lines 158-166), seen from
`temp`: the argument is the chain `temp -> next`. The loop advances while the
next node exists and has a priority strictly greater than the one of `num`, and
the new node is linked in right after the node where it stopped. -/
def insertAfter (prio : Nat → Int) (num : Nat) : List Nat → List Nat
  | [] => [num]
  | x :: xs =>
    if prio x > prio num then x :: insertAfter prio num xs else num :: x :: xs

/-- Function `pushThread` (lines 134-170). -/
def pushThread (prio : Nat → Int) (num : Nat) : List Nat → List Nat
  | [] => [num]
  | t :: rest =>
    if prio num ≥ prio t then num :: t :: rest
    else t :: insertAfter prio num rest

/-- Function `popThread` (lines 174-184). -/
def popThread : List Nat → List Nat
  | [] => []
  | _ :: rest => rest

/-- Priorities read from `top` along `next` never increase. -/
def QueueSorted (prio : Nat → Int) (q : List Nat) : Prop :=
  List.Pairwise (fun a b => prio b ≤ prio a) q

instance (prio : Nat → Int) (q : List Nat) : Decidable (QueueSorted prio q) := by
  unfold QueueSorted; infer_instance

/-- One call on the ready queue. -/
inductive QueueOp where
  | push (num : Nat)
  | pop
  deriving DecidableEq, Repr

/-- Effect of one call on the queue. -/
def applyOp (prio : Nat → Int) (q : List Nat) : QueueOp → List Nat
  | QueueOp.push num => pushThread prio num q
  | QueueOp.pop => popThread q

/-- Effect of a sequence of calls, the earliest first. -/
def runOps (prio : Nat → Int) (ops : List QueueOp) (q : List Nat) : List Nat :=
  ops.foldl (applyOp prio) q

/-- Effect of a sequence of `pushThread` calls, the earliest first. -/
def pushAll (prio : Nat → Int) (nums : List Nat) (q : List Nat) : List Nat :=
  nums.foldl (fun acc num => pushThread prio num acc) q

/-- The uniform insertion rule, written from its description: `num` goes
immediately before the first node whose priority is less than or equal to the
priority of `num`, or at the end when there is no such node. -/
def insertBeforeFirstLE (prio : Nat → Int) (num : Nat) (q : List Nat) : List Nat :=
  q.takeWhile (fun x => decide (¬ prio x ≤ prio num)) ++
    num :: q.dropWhile (fun x => decide (¬ prio x ≤ prio num))

/-- Priority table of the example: tasks 0 and 1 (A and B) have priority 1,
tasks 2 and 3 (C and D) have priority 0. -/
def prioABCD : Nat → Int
  | 0 => 1
  | 1 => 1
  | _ => 0

/-! ## Arrival generator -/

/-- The variables `RandThreadGen` keeps between calls: the static array
`thrnum` and the global `max`. -/
structure GenState where
  thrnum : List Nat
  max : Int
  deriving DecidableEq, Repr

/-- Initial values: `thrnum[] = {0, 1, 2}` and `max = NUM_OF_THREADS - 1`. -/
def genInit : GenState := { thrnum := [0, 1, 2], max := 2 }

/-- The index `num = rand() % (max + 1)` for the value `r` of `rand()`. -/
def drawIndex (r : Nat) (g : GenState) : Nat := ((r : Int) % (g.max + 1)).toNat

/-- The loop `for (i = num; i < max; ++i) thrnum[i] = thrnum[i + 1];`. -/
def shiftDown (thrnum : List Nat) (num : Nat) (max : Int) : List Nat :=
  (List.range' num (max.toNat - num)).foldl
    (fun arr i => arr.set i (arr.getD (i + 1) 0)) thrnum

/-- The body of `RandThreadGen` under `if (max + 1)` once `num` is drawn:
the id read at `thrnum[num]` (none when the index is outside the array)
and the variables after the shift and `max--`. -/
def RandThreadGenAt (num : Nat) (g : GenState) : Option Nat × GenState :=
  (g.thrnum.get? num, { thrnum := shiftDown g.thrnum num g.max, max := g.max - 1 })

/-- Function `RandThreadGen` (lines 203-227) for the value `r` of `rand()`.
When `max + 1` is zero the body is skipped and `calledthread` is returned
without ever having been assigned: that is `none`. -/
def RandThreadGen (r : Nat) (g : GenState) : Option Nat × GenState :=
  if g.max + 1 ≠ 0 then RandThreadGenAt (drawIndex r g) g else (none, g)

/-- One recorded call of `RandThreadGen`. -/
structure GenCall where
  num : Nat
  maxBefore : Int
  arrayLen : Nat
  result : Option Nat
  deriving DecidableEq, Repr

/-- The calls of `RandThreadGen` made for a sequence of draws, under the guard
`if (max + 1)` of the caller (line 239): a call is made, and recorded, only
while `max + 1` is non-zero. Returns the calls and the final variables. -/
def genCalls : List Nat → GenState → List GenCall × GenState
  | [], g => ([], g)
  | r :: rs, g =>
    if g.max + 1 ≠ 0 then
      let out := RandThreadGen r g
      let later := genCalls rs out.2
      ({ num := drawIndex r g, maxBefore := g.max, arrayLen := g.thrnum.length,
         result := out.1 } :: later.1, later.2)
    else genCalls rs g

/-- The ids returned by the recorded calls. -/
def returnedIds (calls : List GenCall) : List (Option Nat) := calls.map (fun c => c.result)

/-! ## Scheduler and workers

The scheduler thread (`MyScheduler`) and the three worker threads (`fun1`,
`fun2`, `fun3`) are embedded as one transition system: a state holds the
globals of the program and the control point of every thread, and a step is one
statement of the scheduler or one step of a worker. A work unit of a worker,
from the test of its `wait` flag to the append of its mark, is one step.
The clock is not part of the state: whether the time slice has expired when the
scheduler tests it is supplied with the step, as is the value of `rand()`. -/

/-- The record `thread` (lines 35-42). The field `threadfun` is not stored:
task `k` runs the function `fun(k+1)`, which `funStep k` embeds. -/
structure Thread where
  wait : Bool
  completed : Bool
  priority : Int
  deriving DecidableEq, Repr

/-- Constant `NUM_OF_THREADS`. -/
def NUM_OF_THREADS : Nat := 3

/-- Constants `THREAD1_CYCLE_TIME`, `THREAD2_CYCLE_TIME`, `THREAD3_CYCLE_TIME`,
by task id. -/
def cycleTime : Nat → Nat
  | 0 => 10
  | 1 => 5
  | 2 => 2
  | _ => 0

/-- The character a worker appends to `resource`, by task id. -/
def markOf : Nat → Char
  | 0 => 'a'
  | 1 => 'b'
  | _ => 'c'

/-- The array `thr` after `Init` (lines 276-308). Entries outside 0..2 are
outside the array; they carry the values of a blocked task of priority 0 and
are never read in a run that raises no fault. -/
def Init : Nat → Thread
  | 0 => { wait := true, completed := false, priority := 0 }
  | 1 => { wait := true, completed := false, priority := 1 }
  | 2 => { wait := true, completed := false, priority := 1 }
  | _ => { wait := true, completed := false, priority := 0 }

/-- Assignment `thr[k].wait = b`. -/
def setWait (thr : Nat → Thread) (k : Nat) (b : Bool) : Nat → Thread :=
  fun j => if j = k then { thr j with wait := b } else thr j

/-- Assignment `thr[k].completed = true`. -/
def setCompleted (thr : Nat → Thread) (k : Nat) : Nat → Thread :=
  fun j => if j = k then { thr j with completed := true } else thr j

/-- Assignment to one entry of a per-task table. -/
def setAt {α : Type} (f : Nat → α) (k : Nat) (v : α) : Nat → α :=
  fun j => if j = k then v else f j

/-- Function `isAllCompleted` (lines 188-197). The three flags are read in one
step: a `completed` flag only ever goes from false to true, so reading them one
after another gives a result that reading them together gives at some moment
of the scan. -/
def isAllCompleted (thr : Nat → Thread) : Bool :=
  (List.range NUM_OF_THREADS).all (fun i => (thr i).completed)

/-- Control points of `MyScheduler`, named after the source line of the
statement executed next. -/
inductive PC where
  | L239
  | L241
  | L242
  | L246
  | L249
  | L251
  | L252
  | L260
  | L263
  | L268
  | L271
  | returned
  deriving DecidableEq, Repr

/-- Control points of a worker thread: not yet created; blocked in
`pthread_mutex_lock`; holding the lock at the test of its `for` loop; inside
`pthread_cond_wait` with the lock released; returned. -/
inductive WLoc where
  | notCreated
  | lockWait
  | running
  | condWait
  | exited
  deriving DecidableEq, Repr

/-- Behaviour the C standard leaves undefined, at which a run stops: a
dereference of `top` while it is `NULL`; a read of `calledthread` or of
`thrnum` that has no assigned value; a write outside `resource`; a
`pthread_create` for a task that has a thread already or that is outside 0..2. -/
inductive Fault where
  | nullTop
  | uninitRead
  | resourceBounds
  | createTwice
  deriving DecidableEq, Repr

/-- The state of the program. -/
structure Sys where
  thr : Nat → Thread
  top : List Nat
  gen : GenState
  calledthread : Option Nat
  pc : PC
  resource : List Char
  rindex : Nat
  lock : Option Nat
  wloc : Nat → WLoc
  wi : Nat → Nat
  fault : Option Fault

/-- The state when `main` calls `MyScheduler`: `thr` as set by `Init`, the
globals at their initialisers (`resource` and `rindex` zeroed, `top` null), no
thread created, every static counter `i` at 0. -/
def initSys : Sys :=
  { thr := Init, top := [], gen := genInit, calledthread := none, pc := PC.L239,
    resource := List.replicate 18 (Char.ofNat 0), rindex := 0, lock := none,
    wloc := fun _ => WLoc.notCreated, wi := fun _ => 0, fault := none }

/-- The priority table the queue functions read: `thr[n].priority`. -/
def prioOf (s : Sys) : Nat → Int := fun n => (s.thr n).priority

/-- A write `resource[idx] = c`, none when `idx` is outside the array. -/
def writeResource (res : List Char) (idx : Nat) (c : Char) : Option (List Char) :=
  if idx < res.length then some (res.set idx c) else none

/-- The two statements `resource[rindex++] = c; resource[rindex] = 0;`:
the new buffer and the new `rindex`, none when a write is outside the array. -/
def appendMark (res : List Char) (rindex : Nat) (c : Char) : Option (List Char × Nat) :=
  match writeResource res rindex c with
  | none => none
  | some res1 =>
    match writeResource res1 (rindex + 1) (Char.ofNat 0) with
    | none => none
    | some res2 => some (res2, rindex + 1)

/-- One step of the worker of task `k` (`fun1`, `fun2`, `fun3` for `k` = 0, 1,
2). Blocked in `pthread_mutex_lock` or inside `pthread_cond_wait` it proceeds
by taking the lock when the lock is free. Holding the lock it tests `i <
CYCLE_TIME`: when the test fails it sets `completed`, unlocks and returns;
otherwise it tests `thr[k].wait` and either enters `pthread_cond_wait`,
releasing the lock, or performs its work unit (append of the mark, `++i`). -/
def funStep (k : Nat) (s : Sys) : Sys :=
  match s.wloc k with
  | WLoc.notCreated => s
  | WLoc.exited => s
  | WLoc.lockWait =>
    match s.lock with
    | none => { s with lock := some k, wloc := setAt s.wloc k WLoc.running }
    | some _ => s
  | WLoc.condWait =>
    match s.lock with
    | none => { s with lock := some k, wloc := setAt s.wloc k WLoc.running }
    | some _ => s
  | WLoc.running =>
    if s.wi k < cycleTime k then
      if (s.thr k).wait then
        { s with lock := none, wloc := setAt s.wloc k WLoc.condWait }
      else
        match appendMark s.resource s.rindex (markOf k) with
        | none => { s with fault := some Fault.resourceBounds }
        | some out =>
          { s with resource := out.1, rindex := out.2, wi := setAt s.wi k (s.wi k + 1) }
    else
      { s with thr := setCompleted s.thr k, lock := none,
               wloc := setAt s.wloc k WLoc.exited }

/-- One statement of `MyScheduler` (lines 231-274). `r` is the value of
`rand()` should the statement be the call of `RandThreadGen`; `expired` tells
whether the time slice is over should the statement be the test of the `while`
at line 263. -/
def MySchedulerStep (r : Nat) (expired : Bool) (s : Sys) : Sys :=
  match s.pc with
  | PC.L239 =>
    if s.gen.max + 1 ≠ 0 then { s with pc := PC.L241 } else { s with pc := PC.L246 }
  | PC.L241 =>
    match RandThreadGen r s.gen with
    | (none, _) => { s with fault := some Fault.uninitRead }
    | (some c, g) =>
      if c < NUM_OF_THREADS ∧ s.wloc c = WLoc.notCreated then
        { s with gen := g, calledthread := some c,
                 wloc := setAt s.wloc c WLoc.lockWait, pc := PC.L242 }
      else { s with fault := some Fault.createTwice }
  | PC.L242 =>
    match s.calledthread with
    | none => { s with fault := some Fault.uninitRead }
    | some c => { s with top := pushThread (prioOf s) c s.top, pc := PC.L246 }
  | PC.L246 =>
    match s.top with
    | [] => { s with fault := some Fault.nullTop }
    | t :: _ => { s with thr := setWait s.thr t false, pc := PC.L249 }
  | PC.L249 =>
    match s.top with
    | [] => { s with fault := some Fault.nullTop }
    | t :: _ => if (s.thr t).completed then { s with pc := PC.L251 } else { s with pc := PC.L260 }
  | PC.L251 => { s with top := popThread s.top, pc := PC.L252 }
  | PC.L252 =>
    match s.top with
    | [] => { s with pc := PC.L260 }
    | t :: _ => { s with thr := setWait s.thr t false, pc := PC.L260 }
  | PC.L260 =>
    if s.gen.max + 1 ≠ 0 then { s with pc := PC.L263 } else { s with pc := PC.L271 }
  | PC.L263 =>
    if expired then { s with pc := PC.L268 }
    else
      match s.top with
      | [] => { s with fault := some Fault.nullTop }
      | t :: _ => if (s.thr t).completed then { s with pc := PC.L268 } else s
  | PC.L268 =>
    match s.top with
    | [] => { s with fault := some Fault.nullTop }
    | t :: _ => { s with thr := setWait s.thr t true, pc := PC.L271 }
  | PC.L271 =>
    if isAllCompleted s.thr then { s with pc := PC.returned } else { s with pc := PC.L239 }
  | PC.returned => s

/-- What may happen next: the scheduler executes its next statement, or the
worker of task `k` takes its next step. -/
inductive Act where
  | sched (r : Nat) (expired : Bool)
  | worker (k : Nat)
  deriving DecidableEq, Repr

/-- One step of the program. Nothing moves after a fault or after
`MyScheduler` has returned (`main` then ends the process); a step that is not
enabled leaves the state as it is. -/
def step (s : Sys) (a : Act) : Sys :=
  match s.fault with
  | some _ => s
  | none =>
    if s.pc = PC.returned then s
    else
      match a with
      | Act.sched r expired => MySchedulerStep r expired s
      | Act.worker k => funStep k s

/-- The state after a sequence of steps, the earliest first. -/
def run (acts : List Act) (s : Sys) : Sys := acts.foldl step s

/-- The next step of the worker of task `k` appends its mark. -/
def appendsMark (s : Sys) (k : Nat) : Prop :=
  s.fault = none ∧ s.pc ≠ PC.returned ∧ s.wloc k = WLoc.running ∧
    s.wi k < cycleTime k ∧ (s.thr k).wait = false

instance (s : Sys) (k : Nat) : Decidable (appendsMark s k) := by
  unfold appendsMark; infer_instance

/-- The part of `thrnum` still to be drawn from: indices 0..max. -/
def liveIds (g : GenState) : List Nat := g.thrnum.take (g.max + 1).toNat

/-! ## Example runs and the predicates used in the proofs -/

/-- What is required of the calls recorded for `len` draws: no id is returned
twice; every index drawn is within 0..max and inside `thrnum`, and the value
returned is one of the ids 0, 1, 2; a call is recorded for each of the first
three draws and for no later one; and once three draws are consumed every id is
returned exactly once and `max + 1` is 0. -/
def GenCallsOk (len : Nat) (out : List GenCall × GenState) : Prop :=
  (returnedIds out.1).Nodup ∧
  (∀ c ∈ out.1, (c.num : Int) ≤ c.maxBefore ∧ c.num < c.arrayLen ∧
      (c.result = some 0 ∨ c.result = some 1 ∨ c.result = some 2)) ∧
  out.1.length = min len 3 ∧
  (3 ≤ len → (∀ id < 3, (returnedIds out.1).count (some id) = 1) ∧ out.2.max + 1 = 0)

instance (len : Nat) (out : List GenCall × GenState) : Decidable (GenCallsOk len out) := by
  unfold GenCallsOk; infer_instance

/-- A run up to the grant of task 0: the scheduler admits task 0 (draw 0),
pushes it and clears its `wait` flag, and the worker of task 0 takes the
lock. -/
def runTask0Granted : List Act :=
  List.replicate 4 (Act.sched 0 false) ++ [Act.worker 0]

/-- A run in which task 2 completes within its first time slice: the scheduler
admits task 2 (draw 2), pushes it, clears its `wait` flag and enters the wait
of line 263; the worker of task 2 takes the lock, does its two work units and
sets `completed`. -/
def runTask2Completes : List Act :=
  List.replicate 6 (Act.sched 2 false) ++ List.replicate 4 (Act.worker 2)

/-- A complete run: task 0 arrives and does three work units in its slice,
task 1 arrives and completes in its slice, task 2 arrives and completes, the
scheduler pops tasks 2 and 1, task 0 does its remaining seven work units, and
the scheduler pops it and returns. -/
def runToEnd : List Act :=
  List.replicate 6 (Act.sched 0 false) ++ List.replicate 4 (Act.worker 0) ++
  [Act.sched 0 true, Act.sched 0 false, Act.sched 0 false, Act.worker 0] ++
  List.replicate 6 (Act.sched 0 false) ++ List.replicate 7 (Act.worker 1) ++
  List.replicate 3 (Act.sched 0 false) ++
  List.replicate 7 (Act.sched 0 false) ++ List.replicate 4 (Act.worker 2) ++
  List.replicate 14 (Act.sched 0 false) ++ List.replicate 9 (Act.worker 0) ++
  List.replicate 7 (Act.sched 0 false)

/-- The priorities `Init` assigns. -/
def initPrio : Nat → Int := fun n => (Init n).priority

/-- Task 0 holds the grant: its `wait` flag is off and it has work units
left. -/
def granted0 (s : Sys) : Prop := (s.thr 0).wait = false ∧ s.wi 0 < cycleTime 0

/-- Invariant of the program that ties the grant of task 0 to the queue: the
priorities are those of `Init`, the queue is sorted, a completed task 0 has no
work unit left, the scheduler is about to pop only a completed head, and task 0
holds the grant only while it is the head of the queue, at a control point
between the grant and the next admission of a task. -/
structure GrantInv (s : Sys) : Prop where
  prio : ∀ n, (s.thr n).priority = initPrio n
  sorted : QueueSorted initPrio s.top
  done0 : (s.thr 0).completed = true → cycleTime 0 ≤ s.wi 0
  popReady : s.pc = PC.L251 → ∃ t rest, s.top = t :: rest ∧ (s.thr t).completed = true
  grant : granted0 s →
    s.top.head? = some 0 ∧ s.pc ≠ PC.L241 ∧ s.pc ≠ PC.L242 ∧ s.pc ≠ PC.L252 ∧
      ((s.pc = PC.L239 ∨ s.pc = PC.L271 ∨ s.pc = PC.returned) → s.gen.max + 1 = 0)

/-- Invariant of the program about the shared buffer: `resource` keeps its 18
cells, `rindex` is the number of work units done so far, no worker has done
more work units than its cycle time, a completed worker has done all of them,
the buffer holds one mark per work unit below `rindex`, and no write has gone
outside the buffer. -/
structure BufInv (s : Sys) : Prop where
  len : s.resource.length = 18
  sum : s.rindex = s.wi 0 + s.wi 1 + s.wi 2
  bound : ∀ k, k < NUM_OF_THREADS → s.wi k ≤ cycleTime k
  done : ∀ k, k < NUM_OF_THREADS → (s.thr k).completed = true → s.wi k = cycleTime k
  marks : ∀ k, k < NUM_OF_THREADS →
    (s.resource.take s.rindex).count (markOf k) = s.wi k
  inBounds : s.fault ≠ some Fault.resourceBounds

/-- The generator variables one call later, for every index within 0..max. -/
def genNext (gs : List GenState) : List GenState :=
  gs.flatMap (fun g => (List.range (g.max + 1).toNat).map (fun i => (RandThreadGenAt i g).2))

/-- The generator variables after at most three calls with indices within
0..max. -/
def genReach : List GenState :=
  [genInit] ++ genNext [genInit] ++ genNext (genNext [genInit]) ++
    genNext (genNext (genNext [genInit]))

/-- Invariant of the program about arrivals: the generator variables are among
`genReach`, the tasks without a thread are those still to be drawn, the call at
line 241 is reached with `max + 1` non-zero, line 242 is reached with
`calledthread` assigned, and neither an unassigned read nor a second
`pthread_create` for a task has happened. -/
structure GenInv (s : Sys) : Prop where
  reach : s.gen ∈ genReach
  created : ∀ k, k < NUM_OF_THREADS → (s.wloc k = WLoc.notCreated ↔ k ∈ liveIds s.gen)
  draw : s.pc = PC.L241 → s.gen.max + 1 ≠ 0
  called : s.pc = PC.L242 → s.calledthread ≠ none
  noFault : s.fault ≠ some Fault.uninitRead ∧ s.fault ≠ some Fault.createTwice

/-! ## Properties of the ready queue -/

theorem insertAfter_eq_uniform (prio : Nat → Int) (num : Nat) (q : List Nat) :
    insertAfter prio num q = insertBeforeFirstLE prio num q := by
  induction q with
  | nil => rfl
  | cons x xs ih =>
    unfold insertBeforeFirstLE at ih ⊢
    by_cases h : prio x > prio num
    · have h2 : ¬ prio x ≤ prio num := by omega
      simp [insertAfter, h, h2, List.takeWhile, List.dropWhile, ih]
    · have h2 : prio x ≤ prio num := by omega
      simp [insertAfter, h, h2, List.takeWhile, List.dropWhile]

theorem pushThread_eq_uniform (prio : Nat → Int) (num : Nat) (q : List Nat) :
    pushThread prio num q = insertBeforeFirstLE prio num q := by
  cases q with
  | nil => rfl
  | cons t rest =>
    by_cases h : prio num ≥ prio t
    · have h2 : prio t ≤ prio num := h
      simp [pushThread, h, insertBeforeFirstLE, List.takeWhile, List.dropWhile, h2]
    · have h2 : ¬ prio t ≤ prio num := h
      have ih := insertAfter_eq_uniform prio num rest
      unfold insertBeforeFirstLE at ih ⊢
      simp [pushThread, h, List.takeWhile, List.dropWhile, h2, ih]

theorem mem_insertAfter (prio : Nat → Int) (num : Nat) (q : List Nat) (x : Nat) :
    x ∈ insertAfter prio num q ↔ x = num ∨ x ∈ q := by
  induction q with
  | nil => simp [insertAfter]
  | cons y ys ih =>
    unfold insertAfter
    split
    · simp only [List.mem_cons, ih]; tauto
    · simp only [List.mem_cons]

theorem insertAfter_sorted (prio : Nat → Int) (num : Nat) (q : List Nat)
    (hq : QueueSorted prio q) : QueueSorted prio (insertAfter prio num q) := by
  unfold QueueSorted at hq ⊢
  induction q with
  | nil => simp [insertAfter]
  | cons y ys ih =>
    rw [List.pairwise_cons] at hq
    unfold insertAfter
    split
    · rename_i hgt
      rw [List.pairwise_cons]
      refine ⟨?_, ih hq.2⟩
      intro b hb
      rcases (mem_insertAfter prio num ys b).1 hb with rfl | hb
      · omega
      · exact hq.1 b hb
    · rename_i hle
      rw [List.pairwise_cons, List.pairwise_cons]
      refine ⟨?_, hq⟩
      intro b hb
      rcases List.mem_cons.1 hb with rfl | hb
      · omega
      · have := hq.1 b hb
        omega

theorem pushThread_cons_ge (prio : Nat → Int) (num t : Nat) (rest : List Nat)
    (h : prio t ≤ prio num) : pushThread prio num (t :: rest) = num :: t :: rest := by
  simp [pushThread, h]

theorem pushThread_cons_lt (prio : Nat → Int) (num t : Nat) (rest : List Nat)
    (h : prio num < prio t) :
    pushThread prio num (t :: rest) = t :: insertAfter prio num rest := by
  have h2 : ¬ prio t ≤ prio num := by omega
  simp [pushThread, h2]

theorem pushThread_sorted (prio : Nat → Int) (num : Nat) (q : List Nat)
    (hq : QueueSorted prio q) : QueueSorted prio (pushThread prio num q) := by
  cases q with
  | nil => simp [pushThread, QueueSorted]
  | cons t rest =>
    have hq2 := hq
    unfold QueueSorted at hq2
    rw [List.pairwise_cons] at hq2
    by_cases hge : prio t ≤ prio num
    · rw [pushThread_cons_ge prio num t rest hge]
      unfold QueueSorted at hq ⊢
      rw [List.pairwise_cons]
      refine ⟨?_, hq⟩
      intro b hb
      rcases List.mem_cons.1 hb with rfl | hb
      · exact hge
      · have := hq2.1 b hb
        omega
    · have hlt : prio num < prio t := by omega
      rw [pushThread_cons_lt prio num t rest hlt]
      have hs := insertAfter_sorted prio num rest hq2.2
      unfold QueueSorted at hs ⊢
      rw [List.pairwise_cons]
      refine ⟨?_, hs⟩
      intro b hb
      rcases (mem_insertAfter prio num rest b).1 hb with rfl | hb
      · omega
      · exact hq2.1 b hb

theorem popThread_sorted (prio : Nat → Int) (q : List Nat)
    (hq : QueueSorted prio q) : QueueSorted prio (popThread q) := by
  cases q with
  | nil => exact hq
  | cons t rest =>
    unfold QueueSorted at hq
    rw [List.pairwise_cons] at hq
    exact hq.2

theorem runOps_sorted (prio : Nat → Int) (ops : List QueueOp) (q : List Nat)
    (hq : QueueSorted prio q) : QueueSorted prio (runOps prio ops q) := by
  induction ops generalizing q with
  | nil => exact hq
  | cons op ops ih =>
    unfold runOps
    rw [List.foldl_cons]
    apply ih
    cases op with
    | push num => exact pushThread_sorted prio num q hq
    | pop => exact popThread_sorted prio q hq

theorem pushAll_eq_runOps (prio : Nat → Int) (nums : List Nat) (q : List Nat) :
    pushAll prio nums q = runOps prio (nums.map QueueOp.push) q := by
  induction nums generalizing q with
  | nil => rfl
  | cons n ns ih =>
    unfold pushAll runOps
    rw [List.map_cons, List.foldl_cons, List.foldl_cons]
    exact ih (pushThread prio n q)

theorem pushThread_ne_nil (prio : Nat → Int) (num : Nat) (q : List Nat) :
    pushThread prio num q ≠ [] := by
  rw [pushThread_eq_uniform]
  unfold insertBeforeFirstLE
  simp

theorem pushAll_ne_nil (prio : Nat → Int) (nums : List Nat) (q : List Nat)
    (hq : q ≠ []) : pushAll prio nums q ≠ [] := by
  induction nums generalizing q with
  | nil => exact hq
  | cons n ns ih =>
    unfold pushAll
    rw [List.foldl_cons]
    exact ih _ (pushThread_ne_nil prio n q)

theorem insertAfter_split (prio : Nat → Int) (num : Nat) (q : List Nat) :
    ∃ pre post, q = pre ++ post ∧ insertAfter prio num q = pre ++ num :: post ∧
      (∀ x ∈ pre, prio num < prio x) ∧
      (∀ y, post.head? = some y → prio y ≤ prio num) := by
  induction q with
  | nil => exact ⟨[], [], rfl, rfl, by simp, by simp⟩
  | cons x xs ih =>
    by_cases h : prio x > prio num
    · obtain ⟨pre, post, h1, h2, h3, h4⟩ := ih
      refine ⟨x :: pre, post, by rw [h1]; rfl, by simp [insertAfter, h, h2], ?_, h4⟩
      intro y hy
      rcases List.mem_cons.1 hy with rfl | hy
      · exact h
      · exact h3 y hy
    · refine ⟨[], x :: xs, rfl, by simp [insertAfter, h], by simp, ?_⟩
      intro y hy
      simp only [List.head?_cons, Option.some.injEq] at hy
      subst hy
      omega

theorem pushThread_split (prio : Nat → Int) (num : Nat) (q : List Nat) :
    ∃ pre post, q = pre ++ post ∧ pushThread prio num q = pre ++ num :: post ∧
      (∀ x ∈ pre, prio num < prio x) ∧
      (∀ y, post.head? = some y → prio y ≤ prio num) := by
  cases q with
  | nil => exact ⟨[], [], rfl, rfl, by simp, by simp⟩
  | cons t rest =>
    by_cases h : prio t ≤ prio num
    · refine ⟨[], t :: rest, rfl, by rw [pushThread_cons_ge prio num t rest h]; rfl,
        by simp, ?_⟩
      intro y hy
      simp only [List.head?_cons, Option.some.injEq] at hy
      subst hy
      exact h
    · have hlt : prio num < prio t := by omega
      obtain ⟨pre, post, h1, h2, h3, h4⟩ := insertAfter_split prio num rest
      refine ⟨t :: pre, post, by rw [h1]; rfl,
        by rw [pushThread_cons_lt prio num t rest hlt, h2]; rfl, ?_, h4⟩
      intro y hy
      rcases List.mem_cons.1 hy with rfl | hy
      · exact hlt
      · exact h3 y hy

theorem sorted_suffix_le_head (prio : Nat → Int) (pre post : List Nat) (bound : Int)
    (hs : QueueSorted prio (pre ++ post))
    (hh : ∀ y, post.head? = some y → prio y ≤ bound) :
    ∀ y ∈ post, prio y ≤ bound := by
  unfold QueueSorted at hs
  have hpost := (List.pairwise_append.1 hs).2.1
  cases post with
  | nil => simp
  | cons p ps =>
    rw [List.pairwise_cons] at hpost
    have hp := hh p rfl
    intro y hy
    rcases List.mem_cons.1 hy with rfl | hy
    · exact hp
    · have := hpost.1 y hy
      omega

theorem pushAll_sorted (prio : Nat → Int) (nums : List Nat) :
    QueueSorted prio (pushAll prio nums []) := by
  rw [pushAll_eq_runOps]
  exact runOps_sorted prio _ [] List.Pairwise.nil

/-- C1: for every priority table, `pushThread` (for any task id) and
`popThread` preserve the ordering of the queue, and after every sequence of
`pushThread` and `popThread` calls starting from the empty queue the priorities
read from `top` are in non-increasing order. -/
theorem queue_sorted_after_any_calls (prio : Nat → Int) :
    (∀ (num : Nat) (q : List Nat),
        QueueSorted prio q → QueueSorted prio (pushThread prio num q)) ∧
    (∀ q : List Nat, QueueSorted prio q → QueueSorted prio (popThread q)) ∧
    (∀ ops : List QueueOp, QueueSorted prio (runOps prio ops [])) :=
  ⟨fun num q hq => pushThread_sorted prio num q hq,
   fun q hq => popThread_sorted prio q hq,
   fun ops => runOps_sorted prio ops [] List.Pairwise.nil⟩

/-- C2: for every priority table and every non-empty sequence of `pushThread`
calls starting from the empty queue, the queue is non-empty and the task at
`top` has a priority greater than or equal to the priority of every other task
in the queue. -/
theorem top_has_greatest_priority (prio : Nat → Int) (num : Nat) (nums : List Nat) :
    ∃ t rest, pushAll prio (num :: nums) [] = t :: rest ∧
      ∀ x ∈ rest, prio x ≤ prio t := by
  have hs := pushAll_sorted prio (num :: nums)
  have hne : pushAll prio (num :: nums) [] ≠ [] := by
    unfold pushAll
    rw [List.foldl_cons]
    exact pushAll_ne_nil prio nums _ (pushThread_ne_nil prio num [])
  cases hq : pushAll prio (num :: nums) [] with
  | nil => exact absurd hq hne
  | cons t rest =>
    rw [hq] at hs
    unfold QueueSorted at hs
    rw [List.pairwise_cons] at hs
    exact ⟨t, rest, rfl, hs.1⟩

/-- C3 (as stated, refuted): with priorities A = 1, B = 1, C = 0, D = 0 (ids
0, 1, 2, 3), pushing A, B, C, D onto the empty queue gives the order
[B, A, D, C] from the head, not [B, A, C, D]: D, pushed with a priority
strictly lower than the head's, lands before the already-queued C of the same
priority. -/
theorem fifo_below_head_fails :
    pushAll prioABCD [0, 1, 2, 3] [] = [1, 0, 3, 2] ∧
    pushAll prioABCD [0, 1, 2, 3] [] ≠ [1, 0, 2, 3] := by
  decide

/-- C3 (amended): equal priorities below the head are ordered last-in
first-out too. For every queue built by `pushThread`, a task pushed with a
priority strictly lower than the head's is placed after the tasks of strictly
greater priority and before every already-queued task of priority less than or
equal to its own, hence before every already-queued task of the same priority.
With A = 1, B = 1, C = 0, D = 0 the order from the head is [B, A, D, C]. -/
theorem lifo_below_head (prio : Nat → Int) (nums : List Nat) (num t : Nat)
    (rest : List Nat) (hq : pushAll prio nums [] = t :: rest)
    (hlt : prio num < prio t) :
    (∃ pre post, t :: rest = (t :: pre) ++ post ∧
      pushThread prio num (t :: rest) = (t :: pre) ++ num :: post ∧
      (∀ x ∈ t :: pre, prio num < prio x) ∧
      (∀ y ∈ post, prio y ≤ prio num)) ∧
    pushAll prioABCD [0, 1, 2, 3] [] = [1, 0, 3, 2] := by
  refine ⟨?_, by decide⟩
  have hs : QueueSorted prio (t :: rest) := by
    rw [← hq]; exact pushAll_sorted prio nums
  obtain ⟨pre, post, h1, h2, h3, h4⟩ := insertAfter_split prio num rest
  have hs2 : QueueSorted prio ((t :: pre) ++ post) := by
    rw [List.cons_append, ← h1]; exact hs
  refine ⟨pre, post, by rw [h1]; rfl, ?_, ?_,
    sorted_suffix_le_head prio (t :: pre) post (prio num) hs2 h4⟩
  · rw [pushThread_cons_lt prio num t rest hlt, h2]; rfl
  · intro x hx
    rcases List.mem_cons.1 hx with rfl | hx
    · exact hlt
    · exact h3 x hx

/-- Instance of the amended C3 at the queue [B, A, C] built by pushing A, B, C,
with D pushed next. -/
theorem lifo_below_head_witness :
    pushAll prioABCD [0, 1, 2] [] = 1 :: [0, 2] ∧ prioABCD 3 < prioABCD 1 ∧
    ((∃ pre post, 1 :: [0, 2] = (1 :: pre) ++ post ∧
      pushThread prioABCD 3 (1 :: [0, 2]) = (1 :: pre) ++ 3 :: post ∧
      (∀ x ∈ 1 :: pre, prioABCD 3 < prioABCD x) ∧
      (∀ y ∈ post, prioABCD y ≤ prioABCD 3)) ∧
    pushAll prioABCD [0, 1, 2, 3] [] = [1, 0, 3, 2]) :=
  ⟨by decide, by decide,
   lifo_below_head prioABCD [0, 1, 2] 3 1 [0, 2] (by decide) (by decide)⟩

/-- C4: for every non-empty queue and every task whose priority is greater than
or equal to the priority of the current head, `pushThread` makes that task the
new head with the whole previous queue, in its previous order, directly behind
it; on the empty queue `pushThread` yields the one-element queue; pushing `t`
and then `num` onto the empty queue gives head `num`. -/
theorem pushThread_last_arrived_wins (prio : Nat → Int) (num t : Nat) (rest : List Nat)
    (h : prio num ≥ prio t) :
    pushThread prio num (t :: rest) = num :: t :: rest ∧
    pushThread prio num [] = [num] ∧
    pushAll prio [t, num] [] = [num, t] := by
  refine ⟨pushThread_cons_ge prio num t rest h, rfl, ?_⟩
  show pushThread prio num (pushThread prio t []) = [num, t]
  exact pushThread_cons_ge prio num t [] h

/-- Instance of C4: B pushed onto [A, C] with the priority of B equal to the
priority of A. -/
theorem pushThread_last_arrived_wins_witness :
    prioABCD 1 ≥ prioABCD 0 ∧
    (pushThread prioABCD 1 (0 :: [2]) = 1 :: 0 :: [2] ∧
     pushThread prioABCD 1 [] = [1] ∧
     pushAll prioABCD [0, 1] [] = [1, 0]) :=
  ⟨by decide, pushThread_last_arrived_wins prioABCD 1 0 [2] (by decide)⟩

/-- C8: `popThread` drops exactly the head entry: on a non-empty queue the
result is the previous queue without its first node, the remaining nodes
unchanged and in the same order; on the empty queue the result is the empty
queue. -/
theorem popThread_drops_head (t : Nat) (rest : List Nat) :
    popThread (t :: rest) = rest ∧ popThread [] = [] ∧
    (∀ q : List Nat, popThread q = q.drop 1) := by
  refine ⟨rfl, rfl, ?_⟩
  intro q
  cases q <;> rfl

/-- C9: for every priority table, every queue (sorted or not, empty or not) and
every task id, `pushThread` yields the queue obtained by inserting the id
immediately before the first node whose priority is less than or equal to its
priority, or at the end if there is no such node; the result is the old queue
split in two with the new id in between, every node before it having a strictly
greater priority and the node right after it, if any, a priority less than or
equal to the one of the new id. -/
theorem pushThread_is_uniform_insertion (prio : Nat → Int) (num : Nat) (q : List Nat) :
    pushThread prio num q = insertBeforeFirstLE prio num q ∧
    ∃ pre post, q = pre ++ post ∧ pushThread prio num q = pre ++ num :: post ∧
      (∀ x ∈ pre, prio num < prio x) ∧
      (∀ y, post.head? = some y → prio y ≤ prio num) :=
  ⟨pushThread_eq_uniform prio num q, pushThread_split prio num q⟩

/-! ## Properties of the arrival generator -/

theorem drawIndex_lt (r : Nat) (g : GenState) (m : Nat) (h : g.max + 1 = (m : Int))
    (hm : 0 < m) : drawIndex r g < m := by
  unfold drawIndex
  rw [h]
  have h1 := Int.emod_lt_of_pos (r : Int) (show (0 : Int) < (m : Int) by omega)
  have h2 := Int.emod_nonneg (r : Int) (show (m : Int) ≠ 0 by omega)
  omega

theorem genCalls_call (r : Nat) (rs : List Nat) (g : GenState) (h : g.max + 1 ≠ 0) :
    genCalls (r :: rs) g =
      ({ num := drawIndex r g, maxBefore := g.max, arrayLen := g.thrnum.length,
         result := (RandThreadGenAt (drawIndex r g) g).1 } ::
          (genCalls rs (RandThreadGenAt (drawIndex r g) g).2).1,
        (genCalls rs (RandThreadGenAt (drawIndex r g) g).2).2) := by
  simp [genCalls, RandThreadGen, h]

theorem genCalls_done (rs : List Nat) (g : GenState) (h : g.max + 1 = 0) :
    genCalls rs g = ([], g) := by
  induction rs with
  | nil => rfl
  | cons r rs ih => simp [genCalls, h, ih]

theorem GenCallsOk_of_three (n : Nat) (out : List GenCall × GenState)
    (h : GenCallsOk 3 out) : GenCallsOk (n + 3) out := by
  unfold GenCallsOk at h ⊢
  refine ⟨h.1, h.2.1, ?_, fun _ => h.2.2.2 (le_refl 3)⟩
  rw [h.2.2.1]
  simp

theorem genCalls_ok (rs : List Nat) : GenCallsOk rs.length (genCalls rs genInit) := by
  rcases rs with _ | ⟨r1, rs⟩
  · decide
  rw [genCalls_call r1 rs genInit (by decide)]
  have h1 := drawIndex_lt r1 genInit 3 (by decide) (by decide)
  generalize drawIndex r1 genInit = i1 at h1 ⊢
  interval_cases i1 <;>
  · rcases rs with _ | ⟨r2, rs⟩
    · show GenCallsOk 1 _
      decide
    rw [genCalls_call r2 rs _ (by decide)]
    generalize h2 : drawIndex r2 _ = i2
    have h2b : i2 < 2 := by
      rw [← h2]; exact drawIndex_lt r2 _ 2 (by decide) (by decide)
    clear h2
    interval_cases i2 <;>
    · rcases rs with _ | ⟨r3, rs⟩
      · show GenCallsOk 2 _
        decide
      rw [genCalls_call r3 rs _ (by decide)]
      generalize h3 : drawIndex r3 _ = i3
      have h3b : i3 < 1 := by
        rw [← h3]; exact drawIndex_lt r3 _ 1 (by decide) (by decide)
      clear h3
      interval_cases i3
      rw [genCalls_done rs _ (by decide)]
      exact GenCallsOk_of_three rs.length _ (by decide)


/-- C5: with the value of `rand()` arbitrary, for every sequence of draws the
calls of `RandThreadGen` made while `max + 1` is non-zero never return the same
id twice; each index drawn is within 0..max and inside `thrnum`, and each call
returns one of the ids 0, 1, 2; exactly the first three draws lead to a call;
and once three calls are made every id in 0..2 has been returned exactly once
and `max + 1` is 0. -/
theorem RandThreadGen_never_repeats (rs : List Nat) :
    (returnedIds (genCalls rs genInit).1).Nodup ∧
    (∀ c ∈ (genCalls rs genInit).1, (c.num : Int) ≤ c.maxBefore ∧ c.num < c.arrayLen ∧
      (c.result = some 0 ∨ c.result = some 1 ∨ c.result = some 2)) ∧
    (genCalls rs genInit).1.length = min rs.length 3 ∧
    (3 ≤ rs.length →
      (∀ id < 3, (returnedIds (genCalls rs genInit).1).count (some id) = 1) ∧
      (genCalls rs genInit).2.max + 1 = 0) :=
  genCalls_ok rs

/-! ## Invariants of the scheduler and worker system -/

@[simp] theorem setWait_priority (thr : Nat → Thread) (k : Nat) (b : Bool) (n : Nat) :
    (setWait thr k b n).priority = (thr n).priority := by
  unfold setWait; split <;> rfl

@[simp] theorem setWait_completed (thr : Nat → Thread) (k : Nat) (b : Bool) (n : Nat) :
    (setWait thr k b n).completed = (thr n).completed := by
  unfold setWait; split <;> rfl

theorem setWait_wait (thr : Nat → Thread) (k : Nat) (b : Bool) (n : Nat) :
    (setWait thr k b n).wait = if n = k then b else (thr n).wait := by
  unfold setWait; split <;> rfl

@[simp] theorem setCompleted_priority (thr : Nat → Thread) (k n : Nat) :
    (setCompleted thr k n).priority = (thr n).priority := by
  unfold setCompleted; split <;> rfl

@[simp] theorem setCompleted_wait (thr : Nat → Thread) (k n : Nat) :
    (setCompleted thr k n).wait = (thr n).wait := by
  unfold setCompleted; split <;> rfl

theorem setCompleted_completed (thr : Nat → Thread) (k n : Nat) :
    (setCompleted thr k n).completed = if n = k then true else (thr n).completed := by
  unfold setCompleted; split <;> rfl

theorem setAt_apply {α : Type} (f : Nat → α) (k : Nat) (v : α) (n : Nat) :
    setAt f k v n = if n = k then v else f n := rfl

theorem prioOf_eq_initPrio (s : Sys) (h : ∀ n, (s.thr n).priority = initPrio n) :
    prioOf s = initPrio := by
  funext n; exact h n

theorem grantInv_init : GrantInv initSys := by
  refine ⟨fun n => rfl, List.Pairwise.nil, ?_, ?_, ?_⟩
  · intro h; exact absurd h (by decide)
  · intro h; exact absurd h (by decide)
  · intro h; exact absurd h.1 (by decide)

theorem grantInv_worker (k : Nat) (s : Sys) (h : GrantInv s) : GrantInv (funStep k s) := by
  unfold funStep
  split
  · exact h
  · exact h
  · split
    · exact ⟨h.prio, h.sorted, h.done0, h.popReady, h.grant⟩
    · exact h
  · split
    · exact ⟨h.prio, h.sorted, h.done0, h.popReady, h.grant⟩
    · exact h
  · split
    · split
      · exact ⟨h.prio, h.sorted, h.done0, h.popReady, h.grant⟩
      · split
        · exact ⟨h.prio, h.sorted, h.done0, h.popReady, h.grant⟩
        · rename_i hlt hw out hout
          refine ⟨h.prio, h.sorted, ?_, h.popReady, ?_⟩
          · intro hc
            have := h.done0 hc
            show cycleTime 0 ≤ setAt s.wi k (s.wi k + 1) 0
            rw [setAt_apply]; split
            · subst_vars; omega
            · exact this
          · intro hg
            apply h.grant
            refine ⟨hg.1, ?_⟩
            have := hg.2
            change setAt s.wi k (s.wi k + 1) 0 < cycleTime 0 at this
            rw [setAt_apply] at this
            split at this
            · subst_vars; omega
            · exact this
    · rename_i hge
      refine ⟨?_, h.sorted, ?_, ?_, ?_⟩
      · intro n; show (setCompleted s.thr k n).priority = _; simp [h.prio]
      · intro hc
        change (setCompleted s.thr k 0).completed = true at hc
        show cycleTime 0 ≤ s.wi 0
        rw [setCompleted_completed] at hc
        split at hc
        · subst_vars; omega
        · exact h.done0 hc
      · intro hpc
        obtain ⟨t, rest, h1, h2⟩ := h.popReady hpc
        refine ⟨t, rest, h1, ?_⟩
        show (setCompleted s.thr k t).completed = true
        rw [setCompleted_completed]; split
        · rfl
        · exact h2
      · intro hg
        apply h.grant
        refine ⟨?_, hg.2⟩
        have := hg.1
        change (setCompleted s.thr k 0).wait = false at this
        simpa using this

theorem grantInv_setPc (s : Sys) (p : PC) (h : GrantInv s)
    (hpop : p = PC.L251 → ∃ t rest, s.top = t :: rest ∧ (s.thr t).completed = true)
    (hg : granted0 s → p ≠ PC.L241 ∧ p ≠ PC.L242 ∧ p ≠ PC.L252 ∧
      ((p = PC.L239 ∨ p = PC.L271 ∨ p = PC.returned) → s.gen.max + 1 = 0)) :
    GrantInv { s with pc := p } :=
  ⟨h.prio, h.sorted, h.done0, hpop, fun g => ⟨(h.grant g).1, hg g⟩⟩

theorem grantInv_setWait (s : Sys) (t : Nat) (rest : List Nat) (b : Bool) (p : PC)
    (h : GrantInv s) (htop : s.top = t :: rest) (hp : p = PC.L249 ∨ p = PC.L260 ∨ p = PC.L271)
    (hb : b = true → p = PC.L271)
    (hold : b = false → granted0 s → t = 0)
    (hend : p = PC.L271 → b = true) :
    GrantInv { s with thr := setWait s.thr t b, pc := p } := by
  refine ⟨?_, h.sorted, ?_, ?_, ?_⟩
  · intro n; show (setWait s.thr t b n).priority = _; simp [h.prio]
  · intro hc
    change (setWait s.thr t b 0).completed = true at hc
    rw [setWait_completed] at hc
    exact h.done0 hc
  · intro hpc
    change p = PC.L251 at hpc
    rcases hp with hp | hp | hp <;> rw [hp] at hpc <;> exact absurd hpc (by decide)
  · intro hg
    have hw : (setWait s.thr t b 0).wait = false := hg.1
    have hi : s.wi 0 < cycleTime 0 := hg.2
    rw [setWait_wait] at hw
    show s.top.head? = some 0 ∧ p ≠ PC.L241 ∧ p ≠ PC.L242 ∧ p ≠ PC.L252 ∧
      ((p = PC.L239 ∨ p = PC.L271 ∨ p = PC.returned) → s.gen.max + 1 = 0)
    by_cases ht : 0 = t
    · rw [if_pos ht] at hw
      subst hw
      refine ⟨by rw [htop, ← ht]; rfl, ?_, ?_, ?_, ?_⟩
      · rcases hp with hp | hp | hp <;> rw [hp] <;> decide
      · rcases hp with hp | hp | hp <;> rw [hp] <;> decide
      · rcases hp with hp | hp | hp <;> rw [hp] <;> decide
      · intro hq
        rcases hq with hq | hq | hq
        · rcases hp with hp | hp | hp <;> rw [hp] at hq <;> exact absurd hq (by decide)
        · exact absurd (hend hq) (by decide)
        · rcases hp with hp | hp | hp <;> rw [hp] at hq <;> exact absurd hq (by decide)
    · rw [if_neg ht] at hw
      have hgs : granted0 s := ⟨hw, hi⟩
      have hhead := (h.grant hgs).1
      rw [htop] at hhead
      simp only [List.head?_cons, Option.some.injEq] at hhead
      exact absurd hhead.symm ht

theorem grantInv_sched (r : Nat) (expired : Bool) (s : Sys) (h : GrantInv s) :
    GrantInv (MySchedulerStep r expired s) := by
  unfold MySchedulerStep
  split
  · -- L239
    rename_i hpc
    split
    · rename_i hmax
      refine grantInv_setPc s _ h (fun hp => absurd hp (by decide)) ?_
      intro hg
      exact absurd ((h.grant hg).2.2.2.2 (Or.inl hpc)) hmax
    · refine grantInv_setPc s _ h (fun hp => absurd hp (by decide)) ?_
      intro _
      refine ⟨by decide, by decide, by decide, ?_⟩
      intro hq
      rcases hq with hq | hq | hq <;> exact absurd hq (by decide)
  · -- L241
    rename_i hpc
    split
    · exact ⟨h.prio, h.sorted, h.done0, h.popReady, h.grant⟩
    · split
      · refine ⟨h.prio, h.sorted, h.done0,
          fun hp => absurd (show PC.L242 = PC.L251 from hp) (by decide), ?_⟩
        intro hg
        exact absurd hpc (h.grant hg).2.1
      · exact ⟨h.prio, h.sorted, h.done0, h.popReady, h.grant⟩
  · -- L242
    rename_i hpc
    split
    · exact ⟨h.prio, h.sorted, h.done0, h.popReady, h.grant⟩
    · refine ⟨h.prio, ?_, h.done0,
        fun hp => absurd (show PC.L246 = PC.L251 from hp) (by decide), ?_⟩
      · show QueueSorted initPrio (pushThread (prioOf s) _ s.top)
        rw [prioOf_eq_initPrio s h.prio]
        exact pushThread_sorted initPrio _ s.top h.sorted
      · intro hg
        exact absurd hpc (h.grant hg).2.2.1
  · -- L246
    split
    · exact ⟨h.prio, h.sorted, h.done0, h.popReady, h.grant⟩
    · rename_i t rest htop
      refine grantInv_setWait s t rest false PC.L249 h htop (Or.inl rfl)
        (fun hb => absurd hb (by decide)) ?_ (fun hp => absurd hp (by decide))
      intro _ hg
      have hhead := (h.grant hg).1
      rw [htop] at hhead
      simp only [List.head?_cons, Option.some.injEq] at hhead
      exact hhead
  · -- L249
    split
    · exact ⟨h.prio, h.sorted, h.done0, h.popReady, h.grant⟩
    · rename_i t rest htop
      split
      · rename_i hc
        refine grantInv_setPc s _ h (fun _ => ⟨t, rest, htop, hc⟩) ?_
        intro _
        refine ⟨by decide, by decide, by decide, ?_⟩
        intro hq
        rcases hq with hq | hq | hq <;> exact absurd hq (by decide)
      · refine grantInv_setPc s _ h (fun hp => absurd hp (by decide)) ?_
        intro _
        refine ⟨by decide, by decide, by decide, ?_⟩
        intro hq
        rcases hq with hq | hq | hq <;> exact absurd hq (by decide)
  · -- L251
    rename_i hpc
    refine ⟨h.prio, popThread_sorted initPrio s.top h.sorted, h.done0,
      fun hp => absurd (show PC.L252 = PC.L251 from hp) (by decide), ?_⟩
    intro hg
    have hgs : granted0 s := hg
    obtain ⟨t, rest, htop, hc⟩ := h.popReady hpc
    have hhead := (h.grant hgs).1
    rw [htop] at hhead
    simp only [List.head?_cons, Option.some.injEq] at hhead
    subst hhead
    have := h.done0 hc
    have := hgs.2
    omega
  · -- L252
    rename_i hpc
    split
    · refine grantInv_setPc s _ h (fun hp => absurd hp (by decide)) ?_
      intro hg
      exact absurd hpc (h.grant hg).2.2.2.1
    · rename_i t rest htop
      refine grantInv_setWait s t rest false PC.L260 h htop (Or.inr (Or.inl rfl))
        (fun hb => absurd hb (by decide)) ?_ (fun hp => absurd hp (by decide))
      intro _ hg
      exact absurd hpc (h.grant hg).2.2.2.1
  · -- L260
    split
    · refine grantInv_setPc s _ h (fun hp => absurd hp (by decide)) ?_
      intro _
      refine ⟨by decide, by decide, by decide, ?_⟩
      intro hq
      rcases hq with hq | hq | hq <;> exact absurd hq (by decide)
    · rename_i hmax
      refine grantInv_setPc s _ h (fun hp => absurd hp (by decide)) ?_
      intro _
      refine ⟨by decide, by decide, by decide, ?_⟩
      intro _
      exact not_not.1 hmax
  · -- L263
    have hto : GrantInv { s with pc := PC.L268 } := by
      refine grantInv_setPc s _ h (fun hp => absurd hp (by decide)) ?_
      intro _
      refine ⟨by decide, by decide, by decide, ?_⟩
      intro hq
      rcases hq with hq | hq | hq <;> exact absurd hq (by decide)
    split
    · exact hto
    · split
      · exact ⟨h.prio, h.sorted, h.done0, h.popReady, h.grant⟩
      · split
        · exact hto
        · exact h
  · -- L268
    split
    · exact ⟨h.prio, h.sorted, h.done0, h.popReady, h.grant⟩
    · rename_i t rest htop
      refine grantInv_setWait s t rest true PC.L271 h htop (Or.inr (Or.inr rfl))
        (fun _ => rfl) (fun hb => absurd hb (by decide)) (fun _ => rfl)
  · -- L271
    rename_i hpc
    split
    · refine grantInv_setPc s _ h (fun hp => absurd hp (by decide)) ?_
      intro hg
      refine ⟨by decide, by decide, by decide, ?_⟩
      intro _
      exact (h.grant hg).2.2.2.2 (Or.inr (Or.inl hpc))
    · refine grantInv_setPc s _ h (fun hp => absurd hp (by decide)) ?_
      intro hg
      refine ⟨by decide, by decide, by decide, ?_⟩
      intro _
      exact (h.grant hg).2.2.2.2 (Or.inr (Or.inl hpc))
  · exact h

theorem grantInv_step (s : Sys) (a : Act) (h : GrantInv s) : GrantInv (step s a) := by
  unfold step
  split
  · exact h
  · split
    · exact h
    · cases a with
      | sched r expired => exact grantInv_sched r expired s h
      | worker k => exact grantInv_worker k s h

theorem grantInv_run (acts : List Act) (s : Sys) (h : GrantInv s) : GrantInv (run acts s) := by
  induction acts generalizing s with
  | nil => exact h
  | cons a acts ih =>
    unfold run
    rw [List.foldl_cons]
    exact ih (step s a) (grantInv_step s a h)

theorem take_succ_set_set (res : List Char) (r : Nat) (c z : Char) (h : r < res.length) :
    ((res.set r c).set (r + 1) z).take (r + 1) = res.take r ++ [c] := by
  induction res generalizing r with
  | nil => simp at h
  | cons x xs ih =>
    cases r with
    | zero => simp
    | succ r =>
      simp only [List.length_cons, Nat.add_lt_add_iff_right] at h
      simp only [List.set_cons_succ, List.take_succ_cons, List.cons_append, List.cons.injEq,
        true_and]
      exact ih r h

theorem appendMark_some (res : List Char) (r : Nat) (c : Char) (h : r + 1 < res.length) :
    appendMark res r c = some ((res.set r c).set (r + 1) (Char.ofNat 0), r + 1) := by
  have h1 : r < res.length := by omega
  have h2 : r + 1 < (res.set r c).length := by rw [List.length_set]; exact h
  unfold appendMark writeResource
  rw [if_pos h1]
  simp only []
  rw [if_pos h2]

theorem cycleTime_pos_lt (k s : Nat) (h : s < cycleTime k) : k < NUM_OF_THREADS := by
  unfold NUM_OF_THREADS
  by_contra hk
  have : cycleTime k = 0 := by
    rcases k with _ | _ | _ | k
    · omega
    · omega
    · omega
    · rfl
  omega

theorem markOf_inj (j k : Nat) (hj : j < NUM_OF_THREADS) (hk : k < NUM_OF_THREADS) :
    markOf j = markOf k ↔ j = k := by
  unfold NUM_OF_THREADS at hj hk
  interval_cases j <;> interval_cases k <;> decide

theorem sum_setAt (wi : Nat → Nat) (k : Nat) (hk : k < NUM_OF_THREADS) :
    setAt wi k (wi k + 1) 0 + setAt wi k (wi k + 1) 1 + setAt wi k (wi k + 1) 2 =
      wi 0 + wi 1 + wi 2 + 1 := by
  unfold NUM_OF_THREADS at hk
  interval_cases k <;> simp [setAt] <;> omega

theorem bufInv_init : BufInv initSys := by
  refine ⟨by decide, by decide, ?_, ?_, ?_, by decide⟩
  · intro k _; exact Nat.zero_le _
  · intro k hk hc
    unfold NUM_OF_THREADS at hk
    interval_cases k <;> exact absurd hc (by decide)
  · intro k _
    rfl

theorem bufInv_worker (k : Nat) (s : Sys) (h : BufInv s) : BufInv (funStep k s) := by
  unfold funStep
  split
  · exact h
  · exact h
  · split
    · exact ⟨h.len, h.sum, h.bound, h.done, h.marks, h.inBounds⟩
    · exact h
  · split
    · exact ⟨h.len, h.sum, h.bound, h.done, h.marks, h.inBounds⟩
    · exact h
  · split
    · rename_i hlt
      have hk : k < NUM_OF_THREADS := cycleTime_pos_lt k _ hlt
      split
      · exact ⟨h.len, h.sum, h.bound, h.done, h.marks, h.inBounds⟩
      · have hb0 := h.bound 0 (by decide)
        have hb1 := h.bound 1 (by decide)
        have hb2 := h.bound 2 (by decide)
        have hsum := h.sum
        have hr : s.rindex + 1 < s.resource.length := by
          rw [h.len]
          have hkk := h.bound k hk
          unfold NUM_OF_THREADS at hk
          interval_cases k <;> simp only [cycleTime] at hlt hb0 hb1 hb2 <;> omega
        rw [appendMark_some s.resource s.rindex (markOf k) hr]
        refine ⟨?_, ?_, ?_, ?_, ?_, h.inBounds⟩
        · show ((s.resource.set s.rindex (markOf k)).set (s.rindex + 1) (Char.ofNat 0)).length = 18
          rw [List.length_set, List.length_set]; exact h.len
        · show s.rindex + 1 = setAt s.wi k (s.wi k + 1) 0 + setAt s.wi k (s.wi k + 1) 1 +
            setAt s.wi k (s.wi k + 1) 2
          rw [sum_setAt s.wi k hk, hsum]
        · intro j hj
          show setAt s.wi k (s.wi k + 1) j ≤ cycleTime j
          rw [setAt_apply]; split
          · subst_vars; omega
          · exact h.bound j hj
        · intro j hj hc
          show setAt s.wi k (s.wi k + 1) j = cycleTime j
          have hd := h.done j hj hc
          rw [setAt_apply]; split
          · subst_vars; omega
          · exact hd
        · intro j hj
          show (((s.resource.set s.rindex (markOf k)).set (s.rindex + 1) (Char.ofNat 0)).take
            (s.rindex + 1)).count (markOf j) = setAt s.wi k (s.wi k + 1) j
          rw [take_succ_set_set s.resource s.rindex (markOf k) _ (by omega),
            List.count_append, h.marks j hj, setAt_apply]
          by_cases hjk : j = k
          · subst hjk; simp
          · have hne : ¬ markOf k = markOf j := fun he =>
              hjk ((markOf_inj k j hk hj).1 he).symm
            rw [if_neg hjk, List.count_singleton]
            simp [hne]
    · rename_i hge
      refine ⟨h.len, h.sum, h.bound, ?_, h.marks, h.inBounds⟩
      intro j hj hc
      change (setCompleted s.thr k j).completed = true at hc
      show s.wi j = cycleTime j
      rw [setCompleted_completed] at hc
      split at hc
      · subst_vars
        have := h.bound j hj
        omega
      · exact h.done j hj hc

theorem bufInv_sched (r : Nat) (expired : Bool) (s : Sys) (h : BufInv s) :
    BufInv (MySchedulerStep r expired s) := by
  have hw : ∀ (t : Nat) (b : Bool) (p : PC),
      BufInv { s with thr := setWait s.thr t b, pc := p } := by
    intro t b p
    refine ⟨h.len, h.sum, h.bound, ?_, h.marks, h.inBounds⟩
    intro j hj hc
    change (setWait s.thr t b j).completed = true at hc
    rw [setWait_completed] at hc
    exact h.done j hj hc
  have hf : ∀ f : Fault, f ≠ Fault.resourceBounds → BufInv { s with fault := some f } := by
    intro f hne
    refine ⟨h.len, h.sum, h.bound, h.done, h.marks, ?_⟩
    intro he
    exact hne (Option.some.inj he)
  unfold MySchedulerStep
  split
  · split <;> exact ⟨h.len, h.sum, h.bound, h.done, h.marks, h.inBounds⟩
  · split
    · exact hf _ (by decide)
    · split
      · exact ⟨h.len, h.sum, h.bound, h.done, h.marks, h.inBounds⟩
      · exact hf _ (by decide)
  · split
    · exact hf _ (by decide)
    · exact ⟨h.len, h.sum, h.bound, h.done, h.marks, h.inBounds⟩
  · split
    · exact hf _ (by decide)
    · exact hw _ _ _
  · split
    · exact hf _ (by decide)
    · split <;> exact ⟨h.len, h.sum, h.bound, h.done, h.marks, h.inBounds⟩
  · exact ⟨h.len, h.sum, h.bound, h.done, h.marks, h.inBounds⟩
  · split
    · exact ⟨h.len, h.sum, h.bound, h.done, h.marks, h.inBounds⟩
    · exact hw _ _ _
  · split <;> exact ⟨h.len, h.sum, h.bound, h.done, h.marks, h.inBounds⟩
  · split
    · exact ⟨h.len, h.sum, h.bound, h.done, h.marks, h.inBounds⟩
    · split
      · exact hf _ (by decide)
      · split
        · exact ⟨h.len, h.sum, h.bound, h.done, h.marks, h.inBounds⟩
        · exact h
  · split
    · exact hf _ (by decide)
    · exact hw _ _ _
  · split <;> exact ⟨h.len, h.sum, h.bound, h.done, h.marks, h.inBounds⟩
  · exact h

theorem bufInv_step (s : Sys) (a : Act) (h : BufInv s) : BufInv (step s a) := by
  unfold step
  split
  · exact h
  · split
    · exact h
    · cases a with
      | sched r expired => exact bufInv_sched r expired s h
      | worker k => exact bufInv_worker k s h

theorem bufInv_run (acts : List Act) (s : Sys) (h : BufInv s) : BufInv (run acts s) := by
  induction acts generalizing s with
  | nil => exact h
  | cons a acts ih =>
    unfold run
    rw [List.foldl_cons]
    exact ih (step s a) (bufInv_step s a h)

theorem genReach_step : ∀ g ∈ genReach, ∀ i < (g.max + 1).toNat,
    ∃ c, c < 3 ∧ (RandThreadGenAt i g).1 = some c ∧ c ∈ liveIds g ∧
      (RandThreadGenAt i g).2 ∈ genReach ∧
      ∀ k < 3, (k ∈ liveIds (RandThreadGenAt i g).2 ↔ (k ∈ liveIds g ∧ k ≠ c)) := by
  decide

theorem genReach_max : ∀ g ∈ genReach, (-1 : Int) ≤ g.max := by
  decide



theorem genInv_init : GenInv initSys := by
  refine ⟨by decide, ?_, fun _ => by decide, fun h => absurd h (by decide),
    by decide, by decide⟩
  intro k hk
  unfold NUM_OF_THREADS at hk
  interval_cases k <;> decide

theorem genInv_worker (k : Nat) (s : Sys) (h : GenInv s) : GenInv (funStep k s) := by
  have hset : ∀ (v : WLoc), v ≠ WLoc.notCreated → s.wloc k ≠ WLoc.notCreated →
      ∀ j, j < NUM_OF_THREADS → (setAt s.wloc k v j = WLoc.notCreated ↔ j ∈ liveIds s.gen) := by
    intro v hv hk j hj
    rw [← h.created j hj, setAt_apply]
    split
    · subst_vars
      exact ⟨fun he => absurd he hv, fun he => absurd he hk⟩
    · exact Iff.rfl
  unfold funStep
  split
  · exact h
  · exact h
  · rename_i hloc
    split
    · exact ⟨h.reach, hset _ (by decide) (by rw [hloc]; decide), h.draw, h.called, h.noFault⟩
    · exact h
  · rename_i hloc
    split
    · exact ⟨h.reach, hset _ (by decide) (by rw [hloc]; decide), h.draw, h.called, h.noFault⟩
    · exact h
  · rename_i hloc
    split
    · split
      · exact ⟨h.reach, hset _ (by decide) (by rw [hloc]; decide), h.draw, h.called, h.noFault⟩
      · split
        · exact ⟨h.reach, h.created, h.draw, h.called, by simp, by simp⟩
        · exact ⟨h.reach, h.created, h.draw, h.called, h.noFault⟩
    · exact ⟨h.reach, hset _ (by decide) (by rw [hloc]; decide), h.draw, h.called, h.noFault⟩

theorem genInv_sched (r : Nat) (expired : Bool) (s : Sys) (h : GenInv s) :
    GenInv (MySchedulerStep r expired s) := by
  have hpc : ∀ p : PC, p ≠ PC.L241 → p ≠ PC.L242 → GenInv { s with pc := p } := by
    intro p h1 h2
    exact ⟨h.reach, h.created, fun hp => absurd hp h1, fun hp => absurd hp h2, h.noFault⟩
  have hw : ∀ (t : Nat) (b : Bool) (p : PC), p ≠ PC.L241 → p ≠ PC.L242 →
      GenInv { s with thr := setWait s.thr t b, pc := p } := by
    intro t b p h1 h2
    exact ⟨h.reach, h.created, fun hp => absurd hp h1, fun hp => absurd hp h2, h.noFault⟩
  have hnull : GenInv { s with fault := some Fault.nullTop } :=
    ⟨h.reach, h.created, h.draw, h.called, by simp, by simp⟩
  unfold MySchedulerStep
  split
  · split
    · rename_i hmax
      exact ⟨h.reach, h.created, fun _ => hmax, fun hp => by simp at hp, h.noFault⟩
    · exact hpc _ (by decide) (by decide)
  · rename_i hpcs
    have hmax := h.draw hpcs
    have hge := genReach_max s.gen h.reach
    have hidx : drawIndex r s.gen < (s.gen.max + 1).toNat := by
      apply drawIndex_lt
      · omega
      · omega
    obtain ⟨c, hc3, hres, hlive, hreach, hiff⟩ :=
      genReach_step s.gen h.reach (drawIndex r s.gen) hidx
    have hgen : RandThreadGen r s.gen = RandThreadGenAt (drawIndex r s.gen) s.gen := by
      unfold RandThreadGen; rw [if_pos hmax]
    split
    · rename_i hnone
      rw [hgen] at hnone
      have h1 := congrArg Prod.fst hnone
      rw [hres] at h1
      exact absurd h1 (by simp)
    · rename_i c2 g2 hsome
      rw [hgen] at hsome
      have h1 := congrArg Prod.fst hsome
      have h2 := congrArg Prod.snd hsome
      simp only at h1 h2
      rw [hres] at h1
      have hcc : c = c2 := Option.some.inj h1
      subst hcc
      subst h2
      have hnc : s.wloc c = WLoc.notCreated := (h.created c hc3).2 hlive
      rw [if_pos ⟨hc3, hnc⟩]
      refine ⟨hreach, ?_, fun hp => by simp at hp, fun _ => by simp, h.noFault⟩
      intro j hj
      show setAt s.wloc c WLoc.lockWait j = WLoc.notCreated ↔ _
      rw [hiff j hj, setAt_apply]
      split
      · rename_i hjc
        exact ⟨fun he => absurd he (by decide), fun he => absurd hjc he.2⟩
      · rename_i hjc
        rw [h.created j hj]
        exact ⟨fun he => ⟨he, hjc⟩, fun he => he.1⟩
  · rename_i hpcs
    split
    · rename_i hnone
      exact absurd hnone (h.called hpcs)
    · exact ⟨h.reach, h.created, fun hp => by simp at hp,
        fun hp => by simp at hp, h.noFault⟩
  · split
    · exact hnull
    · exact hw _ _ _ (by decide) (by decide)
  · split
    · exact hnull
    · split
      · exact hpc _ (by decide) (by decide)
      · exact hpc _ (by decide) (by decide)
  · exact ⟨h.reach, h.created, fun hp => by simp at hp,
      fun hp => by simp at hp, h.noFault⟩
  · split
    · exact hpc _ (by decide) (by decide)
    · exact hw _ _ _ (by decide) (by decide)
  · split
    · exact hpc _ (by decide) (by decide)
    · exact hpc _ (by decide) (by decide)
  · split
    · exact hpc _ (by decide) (by decide)
    · split
      · exact hnull
      · split
        · exact hpc _ (by decide) (by decide)
        · exact h
  · split
    · exact hnull
    · exact hw _ _ _ (by decide) (by decide)
  · split
    · exact hpc _ (by decide) (by decide)
    · exact hpc _ (by decide) (by decide)
  · exact h

theorem genInv_step (s : Sys) (a : Act) (h : GenInv s) : GenInv (step s a) := by
  unfold step
  split
  · exact h
  · split
    · exact h
    · cases a with
      | sched r expired => exact genInv_sched r expired s h
      | worker k => exact genInv_worker k s h

theorem genInv_run (acts : List Act) (s : Sys) (h : GenInv s) : GenInv (run acts s) := by
  induction acts generalizing s with
  | nil => exact h
  | cons a acts ih =>
    unfold run
    rw [List.foldl_cons]
    exact ih (step s a) (genInv_step s a h)

/-! ## Properties of the scheduler and worker system -/

theorem appendsMark_of_rindex_changes (s : Sys) (k : Nat)
    (h : (step s (Act.worker k)).rindex ≠ s.rindex) : appendsMark s k := by
  unfold step at h
  split at h
  · exact absurd rfl h
  · rename_i hf
    split at h
    · exact absurd rfl h
    · rename_i hpc
      simp only [funStep] at h
      split at h
      · exact absurd rfl h
      · exact absurd rfl h
      · split at h <;> exact absurd rfl h
      · split at h <;> exact absurd rfl h
      · rename_i hloc
        split at h
        · rename_i hlt
          split at h
          · exact absurd rfl h
          · rename_i hw
            exact ⟨hf, hpc, hloc, hlt, by simpa using hw⟩
        · exact absurd rfl h

theorem zero_of_priority_zero (k : Nat) (hk : k < NUM_OF_THREADS) (hp : initPrio k = 0) :
    k = 0 := by
  unfold NUM_OF_THREADS at hk
  interval_cases k
  · rfl
  · exact absurd hp (by decide)
  · exact absurd hp (by decide)

/-- C6: in the scenario fixed by `Init`, for every arrival order (every value
of every draw) and every state reached by scheduler and worker steps, whenever
the next step of a task of priority 0 appends a mark, that task is the head of
the ready queue, every task in the queue has priority at most 0, and so every
task of priority 1 in the queue (there is none) has its `completed` flag
set. -/
theorem low_priority_never_marks_before_high (acts : List Act) (k : Nat)
    (hk : ((run acts initSys).thr k).priority = 0)
    (hmark : (step (run acts initSys) (Act.worker k)).rindex ≠ (run acts initSys).rindex) :
    (run acts initSys).top.head? = some k ∧
    (∀ t ∈ (run acts initSys).top, ((run acts initSys).thr t).priority ≤ 0) ∧
    (∀ t ∈ (run acts initSys).top, ((run acts initSys).thr t).priority = 1 →
      ((run acts initSys).thr t).completed = true) := by
  have hinv := grantInv_run acts initSys grantInv_init
  have ha := appendsMark_of_rindex_changes _ k hmark
  obtain ⟨_, _, _, hlt, hw⟩ := ha
  have hk3 : k < NUM_OF_THREADS := cycleTime_pos_lt k _ hlt
  rw [hinv.prio k] at hk
  have hk0 := zero_of_priority_zero k hk3 hk
  subst hk0
  have hhead := (hinv.grant ⟨hw, hlt⟩).1
  have hsorted := hinv.sorted
  have hle : ∀ t ∈ (run acts initSys).top, ((run acts initSys).thr t).priority ≤ 0 := by
    intro t ht
    rw [hinv.prio t]
    cases htop : (run acts initSys).top with
    | nil => rw [htop] at ht; simp at ht
    | cons x xs =>
      rw [htop] at hhead hsorted ht
      simp only [List.head?_cons, Option.some.injEq] at hhead
      subst hhead
      unfold QueueSorted at hsorted
      rw [List.pairwise_cons] at hsorted
      rcases List.mem_cons.1 ht with rfl | ht
      · exact le_of_eq rfl
      · exact hsorted.1 t ht
  refine ⟨hhead, hle, ?_⟩
  intro t ht hp
  have := hle t ht
  omega

/-- Instance of C6 at the state in which task 0, admitted first, holds the
grant and the lock: its next step appends a mark, and it is alone in the
queue. -/
theorem low_priority_never_marks_before_high_witness :
    ((run runTask0Granted initSys).thr 0).priority = 0 ∧
    (step (run runTask0Granted initSys) (Act.worker 0)).rindex ≠
      (run runTask0Granted initSys).rindex ∧
    ((run runTask0Granted initSys).top.head? = some 0 ∧
    (∀ t ∈ (run runTask0Granted initSys).top,
      ((run runTask0Granted initSys).thr t).priority ≤ 0) ∧
    (∀ t ∈ (run runTask0Granted initSys).top,
      ((run runTask0Granted initSys).thr t).priority = 1 →
      ((run runTask0Granted initSys).thr t).completed = true)) :=
  ⟨by decide, by decide,
   low_priority_never_marks_before_high runTask0Granted 0 (by decide) (by decide)⟩

/-- C7 (as stated, refuted): in the run where task 2 completes within its first
time slice, arrivals remain (`max + 1` is 2), the scheduler is in the wait of
line 263 with the head task 2 completed and its `wait` flag off; the test of
the head's `completed` flag ends the wait although the slice has not expired,
and the next statement sets the `wait` flag of the completed head back on. -/
theorem preempt_blocks_completed_head :
    (run runTask2Completes initSys).pc = PC.L263 ∧
    (run runTask2Completes initSys).gen.max + 1 ≠ 0 ∧
    (run runTask2Completes initSys).top = [2] ∧
    ((run runTask2Completes initSys).thr 2).completed = true ∧
    ((run runTask2Completes initSys).thr 2).wait = false ∧
    (run (runTask2Completes ++ [Act.sched 0 false]) initSys).pc = PC.L268 ∧
    ((run (runTask2Completes ++ [Act.sched 0 false]) initSys).thr 2).wait = false ∧
    (run (runTask2Completes ++ [Act.sched 0 false, Act.sched 0 false]) initSys).pc
      = PC.L271 ∧
    ((run (runTask2Completes ++ [Act.sched 0 false, Act.sched 0 false]) initSys).thr 2).wait
      = true := by
  decide

/-- C7 (amended): while arrivals remain, the Preempt step sets the `wait` flag
of the head task whichever way the time-slice wait ended, by expiry of the
slice or because the head task's `completed` flag is set: leaving the wait of
line 263 changes no flag and leads to line 268, which sets the head's `wait`
flag and no other. The flag is left as it is only when no arrivals remain
(`max + 1` zero): line 260 then skips both the wait and line 268. -/
theorem preempt_blocks_head (s : Sys) (r : Nat) (expired : Bool) (t : Nat) (rest : List Nat)
    (hpc : s.pc = PC.L263) (htop : s.top = t :: rest)
    (hend : expired = true ∨ (s.thr t).completed = true) :
    (MySchedulerStep r expired s).pc = PC.L268 ∧
    (MySchedulerStep r expired s).thr = s.thr ∧
    (MySchedulerStep r expired s).top = s.top ∧
    (MySchedulerStep r expired (MySchedulerStep r expired s)).pc = PC.L271 ∧
    ((MySchedulerStep r expired (MySchedulerStep r expired s)).thr t).wait = true ∧
    (∀ n, n ≠ t → (MySchedulerStep r expired (MySchedulerStep r expired s)).thr n = s.thr n) ∧
    (∀ s0 : Sys, s0.pc = PC.L260 →
      (s0.gen.max + 1 = 0 →
        (MySchedulerStep r expired s0).pc = PC.L271 ∧ (MySchedulerStep r expired s0).thr = s0.thr) ∧
      (s0.gen.max + 1 ≠ 0 →
        (MySchedulerStep r expired s0).pc = PC.L263 ∧ (MySchedulerStep r expired s0).thr = s0.thr)) := by
  have h1 : MySchedulerStep r expired s = { s with pc := PC.L268 } := by
    unfold MySchedulerStep
    rw [hpc]
    simp only []
    rcases hend with he | hc
    · rw [if_pos he]
    · by_cases he : expired = true
      · rw [if_pos he]
      · rw [if_neg he, htop]
        simp only []
        rw [if_pos hc]
  have h2 : MySchedulerStep r expired { s with pc := PC.L268 } =
      { s with thr := setWait s.thr t true, pc := PC.L271 } := by
    unfold MySchedulerStep
    simp only []
    rw [htop]
  rw [h1, h2]
  refine ⟨rfl, rfl, rfl, rfl, ?_, ?_, ?_⟩
  · show (setWait s.thr t true t).wait = true
    rw [setWait_wait, if_pos rfl]
  · intro n hn
    show setWait s.thr t true n = s.thr n
    unfold setWait
    rw [if_neg hn]
  · intro s0 h0
    unfold MySchedulerStep
    rw [h0]
    simp only []
    constructor
    · intro hm
      rw [if_neg (not_not.2 hm)]
      exact ⟨rfl, rfl⟩
    · intro hm
      rw [if_pos hm]
      exact ⟨rfl, rfl⟩

/-- Instance of the amended C7 at the state in which task 2, the head, has
completed within its first slice and the scheduler is in the wait of line 263
with the slice not expired. -/
theorem preempt_blocks_head_witness :
    (run runTask2Completes initSys).pc = PC.L263 ∧
    (run runTask2Completes initSys).top = 2 :: [] ∧
    (false = true ∨ ((run runTask2Completes initSys).thr 2).completed = true) ∧
    (MySchedulerStep 0 false (run runTask2Completes initSys)).pc = PC.L268 ∧
    ((MySchedulerStep 0 false (MySchedulerStep 0 false (run runTask2Completes initSys))).thr 2).wait
      = true :=
  ⟨by decide, by decide, by decide,
   (preempt_blocks_head (run runTask2Completes initSys) 0 false 2 []
      (by decide) (by decide) (by decide)).1,
   (preempt_blocks_head (run runTask2Completes initSys) 0 false 2 []
      (by decide) (by decide) (by decide)).2.2.2.2.1⟩

theorem run_fault_none_or_nullTop (acts : List Act) :
    (run acts initSys).fault = none ∨ (run acts initSys).fault = some Fault.nullTop := by
  have hg := (genInv_run acts initSys genInv_init).noFault
  have hb := (bufInv_run acts initSys bufInv_init).inBounds
  cases hf : (run acts initSys).fault with
  | none => exact Or.inl rfl
  | some f =>
    rw [hf] at hg hb
    cases f with
    | nullTop => exact Or.inr rfl
    | uninitRead => exact absurd rfl hg.1
    | resourceBounds => exact absurd rfl hb
    | createTwice => exact absurd rfl hg.2

/-- The complete run `runToEnd` ends with `MyScheduler` returned, all three
tasks completed, 17 marks in the buffer and no fault. -/
theorem runToEnd_completes :
    (run runToEnd initSys).pc = PC.returned ∧
    (run runToEnd initSys).fault = none ∧
    isAllCompleted (run runToEnd initSys).thr = true ∧
    (run runToEnd initSys).rindex = 17 ∧
    (run runToEnd initSys).resource =
      ['a', 'a', 'a', 'b', 'b', 'b', 'b', 'b', 'c', 'c', 'a', 'a', 'a', 'a', 'a', 'a', 'a',
        Char.ofNat 0] := by
  decide

/-- C10: in every state reached by scheduler and worker steps, no write has
gone outside `resource` (the only fault a run can raise is the dereference of a
null `top`), `resource` has its 18 cells, `rindex` is the number of appends done
so far, at most 10, 5 and 2 by the three workers, and below `rindex` the buffer
holds exactly that many marks of each worker; a worker that has set `completed`
has done exactly 10, 5 or 2 appends, and once all three have, `rindex` is 17;
and an append about to happen writes the mark at `rindex` and the terminator at
`rindex + 1`, both at most 17. -/
theorem resource_never_overrun (acts : List Act) :
    (run acts initSys).fault ≠ some Fault.resourceBounds ∧
    ((run acts initSys).fault = none ∨ (run acts initSys).fault = some Fault.nullTop) ∧
    (run acts initSys).resource.length = 18 ∧
    (run acts initSys).rindex =
      (run acts initSys).wi 0 + (run acts initSys).wi 1 + (run acts initSys).wi 2 ∧
    (run acts initSys).wi 0 ≤ 10 ∧ (run acts initSys).wi 1 ≤ 5 ∧
    (run acts initSys).wi 2 ≤ 2 ∧ (run acts initSys).rindex ≤ 17 ∧
    (∀ k < 3, ((run acts initSys).resource.take (run acts initSys).rindex).count (markOf k)
      = (run acts initSys).wi k) ∧
    (∀ k < 3, ((run acts initSys).thr k).completed = true →
      (run acts initSys).wi k = cycleTime k) ∧
    (isAllCompleted (run acts initSys).thr = true → (run acts initSys).rindex = 17) ∧
    (∀ k, appendsMark (run acts initSys) k →
      (run acts initSys).rindex + 1 ≤ 17 ∧
      appendMark (run acts initSys).resource (run acts initSys).rindex (markOf k) =
        some ((((run acts initSys).resource.set (run acts initSys).rindex (markOf k)).set
          ((run acts initSys).rindex + 1) (Char.ofNat 0)), (run acts initSys).rindex + 1)) := by
  have h := bufInv_run acts initSys bufInv_init
  have hb0 := h.bound 0 (by decide)
  have hb1 := h.bound 1 (by decide)
  have hb2 := h.bound 2 (by decide)
  have hsum := h.sum
  simp only [cycleTime] at hb0 hb1 hb2
  refine ⟨h.inBounds, run_fault_none_or_nullTop acts, h.len, h.sum, hb0, hb1, hb2, by omega,
    fun k hk => h.marks k hk, fun k hk => h.done k hk, ?_, ?_⟩
  · intro hall
    unfold isAllCompleted at hall
    rw [List.all_eq_true] at hall
    have h0 := h.done 0 (by decide) (hall 0 (by decide))
    have h1 := h.done 1 (by decide) (hall 1 (by decide))
    have h2 := h.done 2 (by decide) (hall 2 (by decide))
    simp only [cycleTime] at h0 h1 h2
    omega
  · intro k hk
    obtain ⟨_, _, _, hlt, _⟩ := hk
    have hk3 : k < NUM_OF_THREADS := cycleTime_pos_lt k _ hlt
    have hr : (run acts initSys).rindex + 1 ≤ 17 := by
      unfold NUM_OF_THREADS at hk3
      interval_cases k <;> simp only [cycleTime] at hlt <;> omega
    refine ⟨hr, appendMark_some _ _ _ ?_⟩
    rw [h.len]
    omega

end PrePrioSched
